import Mathlib

/-!
Verification development for the `call-stack-to-plantuml` VS Code extension
(`src/extension.ts`).  The core of the extension is pure: a call-stack tree
(`StackFrameNode`), a frame-equality predicate (`areFramesEqual`), a
depth-first tree search (`findNodeInChildren`), the merge loop inside
`recordCallStackInfo`, and the serializer `callStackToPlantUML` with the
word-wrapper `autoWordWrap`.  Below, each of those is embedded as an
executable Lean definition translated from the TypeScript source, and the
specification's claims about them are proved or refuted.
-/

/-! ## JavaScript string primitives

The TypeScript code uses `String.prototype.trim`, `split(" ")`,
`startsWith("*")`, `trimEnd`, `+` (concatenation), `length`, and
`Array.prototype.join`.  These are spelled out here over `String.data`
(the underlying character list) so that every definition reduces inside the
kernel.  JavaScript's `length` counts UTF-16 code units while `List.length`
over `Char` counts code points; the two agree on all ASCII inputs, which is
all the claims exercise.  JavaScript's `trim` strips full Unicode
whitespace; the ASCII whitespace characters modelled here are the only ones
that can occur around debugger-reported frame names in the claims. -/

def isJsSpace (c : Char) : Bool :=
  c = ' ' || c = '\t' || c = '\n' || c = '\r'

/-- `splitChars` is JavaScript `split(" ")` on the character-list level:
split on every single space, keeping empty segments (so `"a  b"` yields
`["a", "", "b"]` and `""` yields `[""]`). -/
def splitChars : List Char → List (List Char)
  | [] => [[]]
  | c :: rest =>
    match splitChars rest with
    | [] => [[]]
    | seg :: segs => if c = ' ' then [] :: seg :: segs else (c :: seg) :: segs

/-- JavaScript `line.split(" ")`. -/
def jsSplitSpace (s : String) : List String :=
  (splitChars s.data).map (fun cs => ⟨cs⟩)

/-- JavaScript `line.trim()`. -/
def jsTrim (s : String) : String :=
  ⟨((s.data.dropWhile isJsSpace).reverse.dropWhile isJsSpace).reverse⟩

/-- JavaScript `line.trimEnd()`. -/
def jsTrimEnd (s : String) : String :=
  ⟨(s.data.reverse.dropWhile isJsSpace).reverse⟩

/-- JavaScript `segment.startsWith("*")`. -/
def jsStartsWithStar (s : String) : Bool :=
  match s.data with
  | c :: _ => c = '*'
  | [] => false

/-- JavaScript `s.length` (code units; equals code-point count on ASCII). -/
def jsLength (s : String) : Nat := s.data.length

/-- Concatenation of a list of strings (`Array.prototype.join("")`
specialised to the forms the statements below need). -/
def concatAll : List String → String
  | [] => ""
  | s :: rest => s ++ concatAll rest

/-! ## Frame model

`DebugProtocol.StackFrame` carries many fields, but `areFramesEqual` reads
only `name`, `source?.path`, `line` and `column`, so the embedding keeps
exactly those.  `sourcePath` is the flattening of the optional-chaining
expression `frame.source?.path` (absent `source` and absent `path` both
read as JavaScript `undefined`, i.e. `none`).  `line`/`column` are
optional because the synthetic root frame `{ id: -1, name: "Root" }` is
cast without them; `undefined === undefined` is `true` in JavaScript,
matching `Option` equality. -/

structure StackFrame where
  name : String
  sourcePath : Option String
  line : Option Int
  column : Option Int
deriving DecidableEq, Repr

/-- `areFramesEqual` from `src/extension.ts` lines 56–66:
`frame1.name === frame2.name && frame1.source?.path === frame2.source?.path
&& frame1.line === frame2.line && frame1.column === frame2.column`. -/
def areFramesEqual (frame1 frame2 : StackFrame) : Bool :=
  frame1.name == frame2.name &&
  frame1.sourcePath == frame2.sourcePath &&
  frame1.line == frame2.line &&
  frame1.column == frame2.column

/-- The sentinel frame of the tree root, created in `activate` as
`new StackFrameNode({ id: -1, name: "Root" } as DebugProtocol.StackFrame)`:
only `name` is set, every other identity field is `undefined`. -/
def rootFrame : StackFrame := ⟨"Root", none, none, none⟩

/-- `class StackFrameNode { frame; children }`: one stack frame plus an
ordered children list. -/
inductive StackFrameNode : Type where
  | mk (frame : StackFrame) (children : List StackFrameNode) : StackFrameNode
deriving Repr

def StackFrameNode.frame : StackFrameNode → StackFrame
  | .mk f _ => f

def StackFrameNode.children : StackFrameNode → List StackFrameNode
  | .mk _ cs => cs

/-! ## Tree search -/

mutual
/-- `findNodeInChildren` from `src/extension.ts` lines 86–102: pre-order
depth-first search of the whole subtree rooted at `node` (the node itself
is checked first, then each child subtree in order); returns the first
node whose frame satisfies `areFramesEqual`, or `null`/`none`. -/
def findNodeInChildren : StackFrameNode → StackFrame → Option StackFrameNode
  | .mk f cs, frame =>
    if areFramesEqual f frame then some (.mk f cs)
    else findInList cs frame

/-- The `for (const child of node.children)` loop inside
`findNodeInChildren`: return the first non-`null` recursive result. -/
def findInList : List StackFrameNode → StackFrame → Option StackFrameNode
  | [], _ => none
  | c :: rest, frame =>
    match findNodeInChildren c frame with
    | some n => some n
    | none => findInList rest frame
end

/-! ## Merge (the tree-insertion loop of `recordCallStackInfo`) -/

/-- The append phase of `recordCallStackInfo` (lines 196–201): each
remaining frame becomes a fresh node, pushed as the (sole new) child of
the previous one, forming a linear chain.  `chainNodes fs` is the
children-list contribution of that chain (`[]` when `fs` is empty,
otherwise a single chain-headed node). -/
def chainNodes : List StackFrame → List StackFrameNode
  | [] => []
  | f :: fs => [.mk f (chainNodes fs)]

mutual
/-- Functional rendering of the in-place mutation performed through the
`cursor` alias: `replaceFound node frame repl` rebuilds `node` with the
pre-order-first subtree equivalent to `frame` — exactly the node that
`findNodeInChildren node frame` returns, since both walk the tree in the
same order — replaced by `repl`.  (`replaceFound_self` below confirms the
alignment: replacing the found node by itself is the identity.) -/
def replaceFound : StackFrameNode → StackFrame → StackFrameNode → StackFrameNode
  | .mk f cs, frame, repl =>
    if areFramesEqual f frame then repl
    else .mk f (replaceFoundList cs frame repl)

def replaceFoundList :
    List StackFrameNode → StackFrame → StackFrameNode → List StackFrameNode
  | [], _, _ => []
  | c :: rest, frame, repl =>
    if (findNodeInChildren c frame).isSome then
      replaceFound c frame repl :: rest
    else
      c :: replaceFoundList rest frame repl
end

/-- The merge loop of `recordCallStackInfo` (lines 170–203), with the tree
passed and returned functionally.  The TypeScript walks `callStack`,
advancing `cursor`/`currentNode` to `findNodeInChildren(currentNode,
frame)` while matches are found; at the first failure it stops, computes
`nonOverlappingFrames` (the whole stack when nothing matched, otherwise
`callStack.slice(callStack.indexOf(currentFrame) + 1)` — and since
`indexOf` compares object identity and `currentFrame` is the last matched
element of `callStack` itself, that slice is exactly the frames after the
last matched one), and appends them as a linear chain under the cursor.
Here the same computation is expressed by structural recursion: match a
frame → continue merging the rest inside the found subtree (rebuilding the
outer tree around it); no match → append the remaining frames as a chain
under the current node. -/
def mergeGo : StackFrameNode → List StackFrame → StackFrameNode
  | node, [] => node
  | .mk g cs, f :: rest =>
    match findNodeInChildren (.mk g cs) f with
    | none => .mk g (cs ++ chainNodes (f :: rest))
    | some m => replaceFound (.mk g cs) f (mergeGo m rest)

/-- Merge an ordered (root-to-leaf) frame sequence into the tree: the pure
core of `recordCallStackInfo` after the debugger round-trips. -/
def mergeCallStack (treeRootNode : StackFrameNode)
    (orderedFrames : List StackFrame) : StackFrameNode :=
  mergeGo treeRootNode orderedFrames

/-- `recordCallStackInfo` on a successfully fetched stack trace: the
debugger reports frames innermost-first, the code does
`callStack.reverse()` and then runs the merge loop. -/
def recordCallStackInfo (treeRootNode : StackFrameNode)
    (stackFrames : List StackFrame) : StackFrameNode :=
  mergeCallStack treeRootNode stackFrames.reverse

/-! ## Word wrap and serializer -/

/-- The `for` loop of `autoWordWrap` (lines 262–276), one segment at a
time, threading the mutable pair `(wrappedLines, currentLine)`. -/
def wrapLoop (maxLength : Nat) :
    List String → List String → String → List String × String
  | [], wrappedLines, currentLine => (wrappedLines, currentLine)
  | segment :: rest, wrappedLines, currentLine =>
    if jsLength currentLine + jsLength segment + 1 ≤ maxLength then
      wrapLoop maxLength rest wrappedLines (currentLine ++ segment ++ " ")
    else
      let started := if jsStartsWithStar segment then " " ++ segment else segment
      if jsLength currentLine > 0 then
        wrapLoop maxLength rest (wrappedLines ++ [currentLine]) started
      else
        wrapLoop maxLength rest wrappedLines started

/-- `autoWordWrap` from `src/extension.ts` lines 257–283: trim, split on
single spaces, greedily pack segments (each added segment is followed by a
trailing space, and the fit test `currentLine.length + segment.length + 1
<= maxLength` reserves room for that trailing space); on overflow the
current line is flushed as-is (trailing space kept) and the segment starts
a new line (with one extra leading space if it starts with `*`); the final
line is `trimEnd`-ed before being flushed. -/
def autoWordWrap (line : String) (maxLength : Nat) : List String :=
  let pair := wrapLoop maxLength (jsSplitSpace (jsTrim line)) [] ""
  if jsLength pair.2 > 0 then pair.1 ++ [jsTrimEnd pair.2] else pair.1

/-- The activity line emitted for one node by `callStackToPlantUML`:
`":" + wrappedLines.join("\n") + ";\n"`. -/
def activityLine (maxLength : Nat) (f : StackFrame) : String :=
  ":" ++ String.intercalate "\n" (autoWordWrap f.name maxLength) ++ ";\n"

mutual
/-- `traverseNode` from `callStackToPlantUML` (lines 322–340): walk the
children with their indices, then emit `"\nend split\n\n"` when the node
has more than one child. -/
def traverseNode (maxLength : Nat) : StackFrameNode → String
  | .mk _ cs =>
    traverseChildren maxLength cs.length 0 cs ++
      (if cs.length > 1 then "\nend split\n\n" else "")

/-- The indexed `for (const [index, child] of node.children.entries())`
loop: the first child of a forking node opens with `"\nsplit\n\n"`, each
later child with `"\nsplit again\n\n"`, then the child's activity line and
its recursive serialization. -/
def traverseChildren (maxLength total index : Nat) :
    List StackFrameNode → String
  | [] => ""
  | c :: rest =>
    (if index == 0 && total > 1 then "\nsplit\n\n"
     else if index > 0 then "\nsplit again\n\n" else "")
      ++ activityLine maxLength c.frame
      ++ traverseNode maxLength c
      ++ traverseChildren maxLength total (index + 1) rest
end

/-- `callStackToPlantUML` (lines 315–348): fixed header and `start`
marker, the traversal of the root's children (the synthetic root frame is
never emitted), then `stop` and the footer. -/
def callStackToPlantUML (rootStackFrameNode : StackFrameNode)
    (maxLength : Nat) : String :=
  "@startuml\n" ++ "start\n" ++ traverseNode maxLength rootStackFrameNode
    ++ "stop\n" ++ "@enduml"

/-! ## Invariants used by the claims -/

/-- No two frames in the list are `areFramesEqual`-equivalent (pairwise). -/
def noDupFrames : List StackFrame → Bool
  | [] => true
  | f :: rest => rest.all (fun g => !areFramesEqual f g) && noDupFrames rest

mutual
/-- The §3 invariant, as a decidable predicate: in every node of the tree,
the children's frames are pairwise non-equivalent. -/
def noDupB : StackFrameNode → Bool
  | .mk _ cs => noDupFrames (cs.map StackFrameNode.frame) && noDupListB cs

def noDupListB : List StackFrameNode → Bool
  | [] => true
  | c :: rest => noDupB c && noDupListB rest
end

/-- `TreeExtends t t'` says `t'` is `t` grown monotonically: the root
frame is unchanged, every pre-existing child position still holds a node
that (recursively) extends the old child, and any further children are
appended after all pre-existing ones. -/
inductive TreeExtends : StackFrameNode → StackFrameNode → Prop where
  | mk (f : StackFrame) (cs cs' news : List StackFrameNode) :
      List.Forall₂ TreeExtends cs cs' →
      TreeExtends (.mk f cs) (.mk f (cs' ++ news))

/-- Search a frame list (viewed as the frames of a linear chain) for the
first element equivalent to `f`, returning that element together with the
frames after it.  `findNodeInChildren` on a chain-shaped tree computes
exactly this (`findNodeInChildren_chain` below). -/
def chainFind : List StackFrame → StackFrame → Option (StackFrame × List StackFrame)
  | [], _ => none
  | g :: gs, f => if areFramesEqual g f then some (g, gs) else chainFind gs f

/-! ## Concrete fixtures for counterexamples and witnesses -/

def frameA : StackFrame := ⟨"funcA", some "/src/app.ts", some 10, some 3⟩
def frameB : StackFrame := ⟨"funcB", some "/src/app.ts", some 20, some 3⟩
def frameC : StackFrame := ⟨"funcC", some "/src/app.ts", some 30, some 3⟩
def frameD : StackFrame := ⟨"funcD", some "/src/app.ts", some 40, some 3⟩

/-- A tree whose root has the single child `frameA`, which in turn has the
single child `frameB` — i.e. the result of recording the stack `[A, B]`
into a fresh tree. -/
def treeAB : StackFrameNode :=
  .mk rootFrame [.mk frameA [.mk frameB []]]

/-! ## Basic lemmas about search, replacement and merge -/

theorem areFramesEqual_refl (f : StackFrame) : areFramesEqual f f = true := by
  simp [areFramesEqual]

theorem findNodeInChildren_self (n : StackFrameNode) (f : StackFrame)
    (h : areFramesEqual n.frame f = true) : findNodeInChildren n f = some n := by
  cases n with
  | mk g cs =>
    simp only [StackFrameNode.frame] at h
    simp [findNodeInChildren, h]

theorem findNodeInChildren_none_root (n : StackFrameNode) (f : StackFrame)
    (h : findNodeInChildren n f = none) : areFramesEqual n.frame f = false := by
  cases n with
  | mk g cs =>
    by_cases hg : areFramesEqual g f
    · simp [findNodeInChildren, hg] at h
    · simpa [StackFrameNode.frame] using hg

theorem findInList_none_mem (cs : List StackFrameNode) (f : StackFrame)
    (h : findInList cs f = none) :
    ∀ c ∈ cs, findNodeInChildren c f = none := by
  induction cs with
  | nil => intro c hc; cases hc
  | cons c rest ih =>
    intro d hd
    cases hc : findNodeInChildren c f with
    | some n' => simp [findInList, hc] at h
    | none =>
      simp only [findInList, hc] at h
      cases hd with
      | head => exact hc
      | tail _ hmem => exact ih h d hmem

mutual
theorem replaceFound_self (n : StackFrameNode) (f : StackFrame) (m : StackFrameNode)
    (h : findNodeInChildren n f = some m) : replaceFound n f m = n := by
  cases n with
  | mk g cs =>
    by_cases hg : areFramesEqual g f
    · simp [findNodeInChildren, hg] at h
      simp [replaceFound, hg, h]
    · simp only [findNodeInChildren, hg, Bool.false_eq_true, if_false] at h
      simp [replaceFound, hg, replaceFoundList_self cs f m h]

theorem replaceFoundList_self (cs : List StackFrameNode) (f : StackFrame)
    (m : StackFrameNode) (h : findInList cs f = some m) :
    replaceFoundList cs f m = cs := by
  cases cs with
  | nil => simp [findInList] at h
  | cons c rest =>
    cases hc : findNodeInChildren c f with
    | some n' =>
      simp [findInList, hc] at h
      subst h
      simp [replaceFoundList, hc, replaceFound_self c f n' hc]
    | none =>
      simp only [findInList, hc] at h
      simp [replaceFoundList, hc, replaceFoundList_self rest f m h]
end

theorem replaceFound_frame (n : StackFrameNode) (f : StackFrame)
    (m repl : StackFrameNode) (h : findNodeInChildren n f = some m)
    (hr : repl.frame = m.frame) :
    (replaceFound n f repl).frame = n.frame := by
  cases n with
  | mk g cs =>
    by_cases hg : areFramesEqual g f
    · simp [findNodeInChildren, hg] at h
      simp [replaceFound, hg, hr, ← h]
    · simp [replaceFound, hg, StackFrameNode.frame]

theorem mergeGo_frame (fs : List StackFrame) :
    ∀ n : StackFrameNode, (mergeGo n fs).frame = n.frame := by
  induction fs with
  | nil => intro n; cases n; rfl
  | cons f rest ih =>
    intro n
    cases n with
    | mk g cs =>
      cases hf : findNodeInChildren (.mk g cs) f with
      | none => simp [mergeGo, hf, StackFrameNode.frame]
      | some m =>
        simp only [mergeGo, hf]
        exact replaceFound_frame _ f m _ hf (ih m)

theorem mergeGo_skip (n : StackFrameNode) (f : StackFrame) (rest : List StackFrame)
    (h : areFramesEqual n.frame f = true) :
    mergeGo n (f :: rest) = mergeGo n rest := by
  cases n with
  | mk g cs =>
    have hfind : findNodeInChildren (.mk g cs) f = some (.mk g cs) :=
      findNodeInChildren_self _ f h
    simp only [StackFrameNode.frame] at h
    simp [mergeGo, hfind, replaceFound, h]

theorem mergeGo_cons_none (n : StackFrameNode) (f : StackFrame)
    (rest : List StackFrame) (h : findNodeInChildren n f = none) :
    mergeGo n (f :: rest) = .mk n.frame (n.children ++ chainNodes (f :: rest)) := by
  cases n with
  | mk g cs => simp [mergeGo, h, StackFrameNode.frame, StackFrameNode.children]

theorem mergeGo_single_found (n : StackFrameNode) (f : StackFrame)
    (m : StackFrameNode) (h : findNodeInChildren n f = some m) :
    mergeGo n [f] = n := by
  cases n with
  | mk g cs =>
    simp only [mergeGo, h]
    exact replaceFound_self _ f m h

/-! ## Claim C2 — the wrap example -/

/-- Claim C2 (refuted as stated): the spec predicts
`wrap("one two three", 7) = ["one two", "three"]`, but the code's fit test
`currentLine.length + segment.length + 1 <= maxLength` reserves room for a
trailing space (`"one "` has length 4, so `4 + 3 + 1 > 7` rejects packing
`"two"`), and flushed intermediate lines keep their trailing space. -/
theorem autoWordWrap_example_counterexample :
    autoWordWrap "one two three" 7 ≠ ["one two", "three"] := by
  decide

/-- Claim C2 (amended): the word-wrap function applied to
`"one two three"` with maximum width 7 returns the three-line sequence
`["one ", "two", "three"]` — `"two"` is not packed after `"one"` because
the fit test counts the trailing space that would follow it, and the
non-final flushed line keeps its trailing space. -/
theorem autoWordWrap_example :
    autoWordWrap "one two three" 7 = ["one ", "two", "three"] := by
  decide

/-! ## Claim C3 — frame equivalence -/

/-- Claim C3 (refuted as stated): two frames that agree on `name`,
`source.path` and `line` but differ in `column` are *not* equivalent —
`areFramesEqual` in `src/extension.ts` compares the column as well. -/
theorem areFramesEqual_column_counterexample :
    areFramesEqual ⟨"foo", some "/src/app.ts", some 10, some 5⟩
      ⟨"foo", some "/src/app.ts", some 10, some 6⟩ = false := by
  decide

/-- Claim C3 (amended): `areFramesEqual a b` returns `true` iff the
`displayName`, `sourcePath`, `line` *and `column`* of the two frames all
match, where an absent optional field equals an absent field and never
equals a present one (`Option` equality). -/
theorem areFramesEqual_spec (a b : StackFrame) :
    areFramesEqual a b = true ↔
      a.name = b.name ∧ a.sourcePath = b.sourcePath ∧
      a.line = b.line ∧ a.column = b.column := by
  simp [areFramesEqual, Bool.and_eq_true, beq_iff_eq, and_assoc]

/-! ## Claim C7 — merging the empty sequence -/

/-- Claim C7 (confirmed): merging an empty frame sequence into any tree is
a no-op — the returned tree is (structurally) the very same tree, so every
node, frame and children ordering is unchanged. -/
theorem mergeCallStack_nil (t : StackFrameNode) : mergeCallStack t [] = t := by
  cases t; rfl

/-! ## Claim C9 — determinism of serialization -/

/-- Claim C9 (confirmed): `callStackToPlantUML` is a pure function of the
tree content and the maximum line width — it reads no other state — so
two calls on identical trees with the same width produce identical text. -/
theorem callStackToPlantUML_deterministic (t1 t2 : StackFrameNode)
    (maxLength : Nat) (h : t1 = t2) :
    callStackToPlantUML t1 maxLength = callStackToPlantUML t2 maxLength := by
  rw [h]

/-- Witness for C9 at a concrete tree. -/
theorem callStackToPlantUML_deterministic_witness :
    callStackToPlantUML treeAB 60 = callStackToPlantUML treeAB 60 :=
  callStackToPlantUML_deterministic treeAB treeAB 60 rfl

/-! ## Claim C1 — what the matching phase of the merge actually searches -/

/-- Claim C1 (refuted as stated): in `treeAB` no *direct child* of the
root is equivalent to `frameB` (the only direct child is `frameA`), so
under the claim the matching phase would end at `frameB` and append it as
a new chain under the root.  The code instead finds the `frameB` node two
levels down — `findNodeInChildren` searches the whole subtree — advances
the cursor there, and appends nothing: the merge returns the tree
unchanged. -/
theorem mergeCallStack_direct_children_counterexample :
    (treeAB.children.all fun c => !areFramesEqual c.frame frameB) = true ∧
      mergeCallStack treeAB [frameB] = treeAB := by
  constructor
  · decide
  · rfl

/-- Claim C1 (amended): for each frame the merge searches the *entire
subtree rooted at the cursor* (pre-order, the cursor itself first), not
just the cursor's direct children; the cursor advances to the first
equivalent node found anywhere in that subtree, and the first frame with
no equivalent node in the whole cursor subtree ends the matching phase,
after which that frame and all later frames are appended as a new linear
chain under the cursor.  Conjunct one: a frame with no match anywhere in
the cursor's subtree is appended (with all later frames) as a chain.
Conjunct two: a frame with a match anywhere in the subtree — even a deep
descendant — only moves the cursor, so merging that single frame changes
nothing. -/
theorem mergeCallStack_subtree_scoped :
    (∀ (t : StackFrameNode) (f : StackFrame) (rest : List StackFrame),
       findNodeInChildren t f = none →
       mergeCallStack t (f :: rest) =
         .mk t.frame (t.children ++ chainNodes (f :: rest))) ∧
    (∀ (t : StackFrameNode) (f : StackFrame) (m : StackFrameNode),
       findNodeInChildren t f = some m → mergeCallStack t [f] = t) :=
  ⟨fun t f rest h => mergeGo_cons_none t f rest h,
   fun t f m h => mergeGo_single_found t f m h⟩

/-- Witness for the amended C1: both conjuncts applied at concrete inputs
(`frameA` unmatched in a fresh tree is appended; `frameB` matched two
levels deep in `treeAB` leaves the tree unchanged). -/
theorem mergeCallStack_subtree_scoped_witness :
    (findNodeInChildren (.mk rootFrame []) frameA = none ∧
       mergeCallStack (.mk rootFrame []) [frameA] =
         .mk rootFrame ([] ++ chainNodes [frameA])) ∧
    (findNodeInChildren treeAB frameB = some (.mk frameB []) ∧
       mergeCallStack treeAB [frameB] = treeAB) :=
  ⟨⟨by rfl, mergeCallStack_subtree_scoped.1 (.mk rootFrame []) frameA [] (by rfl)⟩,
   ⟨by rfl, mergeCallStack_subtree_scoped.2 treeAB frameB (.mk frameB []) (by rfl)⟩⟩

/-! ## Claim C5 — the fork example -/

/-- Claim C5 (confirmed): for pairwise non-equivalent frames `A B C D`,
none equivalent to the root sentinel, merging `[A, B, C]` into a fresh
root-only tree and then merging `[A, B, D]` yields root → `A` (one child)
→ `B`, where `B` has exactly the two children `C` then `D`, in insertion
order. -/
theorem mergeCallStack_fork (A B C D : StackFrame)
    (hRA : areFramesEqual rootFrame A = false)
    (hRB : areFramesEqual rootFrame B = false)
    (hRC : areFramesEqual rootFrame C = false)
    (hRD : areFramesEqual rootFrame D = false)
    (hAB : areFramesEqual A B = false)
    (hAC : areFramesEqual A C = false)
    (hAD : areFramesEqual A D = false)
    (hBC : areFramesEqual B C = false)
    (hBD : areFramesEqual B D = false)
    (hCD : areFramesEqual C D = false) :
    mergeCallStack (mergeCallStack (.mk rootFrame []) [A, B, C]) [A, B, D] =
      .mk rootFrame [.mk A [.mk B [.mk C [], .mk D []]]] := by
  simp [mergeCallStack, mergeGo, findNodeInChildren, findInList, replaceFound,
    replaceFoundList, chainNodes, areFramesEqual_refl, hRA, hAB, hBD, hCD]

/-- Witness for C5 at the concrete frames `frameA … frameD`. -/
theorem mergeCallStack_fork_witness :
    mergeCallStack (mergeCallStack (.mk rootFrame []) [frameA, frameB, frameC])
        [frameA, frameB, frameD] =
      .mk rootFrame [.mk frameA [.mk frameB [.mk frameC [], .mk frameD []]]] :=
  mergeCallStack_fork frameA frameB frameC frameD (by decide) (by decide)
    (by decide) (by decide) (by decide) (by decide) (by decide) (by decide)
    (by decide) (by decide)

/-! ## Claim C6 — fork markers and linear chains in the serializer -/

theorem traverseNode_chainNodes (maxLength : Nat) (fs : List StackFrame) :
    ∀ g : StackFrame, traverseNode maxLength (.mk g (chainNodes fs)) =
      concatAll (fs.map (activityLine maxLength)) := by
  induction fs with
  | nil => intro g; simp [chainNodes, traverseNode, traverseChildren, concatAll]
  | cons f rest ih =>
    intro g
    calc traverseNode maxLength (.mk g (chainNodes (f :: rest)))
        = activityLine maxLength f ++
            traverseNode maxLength (.mk f (chainNodes rest)) := by
          simp [chainNodes, traverseNode, traverseChildren, StackFrameNode.frame]
      _ = activityLine maxLength f ++
            concatAll (rest.map (activityLine maxLength)) := by rw [ih f]
      _ = concatAll ((f :: rest).map (activityLine maxLength)) := by
          simp [concatAll]

/-- Claim C6 (confirmed).  Conjunct one: for a node with exactly two
children `P` and `Q`, serialization emits the fork-open marker
`"\nsplit\n\n"`, the activity line for `P` (followed by `P`'s own
subtree), the fork-alternative marker `"\nsplit again\n\n"`, the activity
line for `Q` (followed by `Q`'s subtree), then the fork-close marker
`"\nend split\n\n"`, in that order.  Conjunct two: a tree that is a single
linear chain serializes with no fork markers at all — just the chain's
activity lines in order between the `start` and `stop` markers. -/
theorem callStackToPlantUML_fork_and_chain :
    (∀ (maxLength : Nat) (f : StackFrame) (P Q : StackFrameNode),
       traverseNode maxLength (.mk f [P, Q]) =
         "\nsplit\n\n" ++ activityLine maxLength P.frame ++
           traverseNode maxLength P ++
         "\nsplit again\n\n" ++ activityLine maxLength Q.frame ++
           traverseNode maxLength Q ++
         "\nend split\n\n") ∧
    (∀ (maxLength : Nat) (g : StackFrame) (fs : List StackFrame),
       callStackToPlantUML (.mk g (chainNodes fs)) maxLength =
         "@startuml\n" ++ "start\n" ++
           concatAll (fs.map (activityLine maxLength)) ++
           "stop\n" ++ "@enduml") := by
  constructor
  · intro maxLength f P Q
    simp [traverseNode, traverseChildren, String.append_assoc]
  · intro maxLength g fs
    simp [callStackToPlantUML, traverseNode_chainNodes]

/-! ## Claim C4 — preservation of the no-duplicate-children invariant -/

theorem noDupFrames_append_singleton (xs : List StackFrame) (f : StackFrame)
    (h1 : noDupFrames xs = true)
    (h2 : ∀ g ∈ xs, areFramesEqual g f = false) :
    noDupFrames (xs ++ [f]) = true := by
  induction xs with
  | nil => simp [noDupFrames]
  | cons x rest ih =>
    simp only [noDupFrames, Bool.and_eq_true, List.all_eq_true] at h1
    simp only [List.cons_append, noDupFrames, Bool.and_eq_true, List.all_eq_true]
    refine ⟨?_, ih h1.2 (fun g hg => h2 g (List.mem_cons_of_mem x hg))⟩
    intro g hg
    rcases List.mem_append.mp hg with hmem | hmem
    · exact h1.1 g hmem
    · simp only [List.mem_singleton] at hmem
      subst hmem
      simp [h2 x (List.mem_cons_self x rest)]

theorem noDupListB_append (xs ys : List StackFrameNode) :
    noDupListB (xs ++ ys) = (noDupListB xs && noDupListB ys) := by
  induction xs with
  | nil => simp [noDupListB]
  | cons x rest ih => simp [noDupListB, ih, Bool.and_assoc]

theorem noDupListB_chainNodes (fs : List StackFrame) :
    noDupListB (chainNodes fs) = true := by
  induction fs with
  | nil => simp [chainNodes, noDupListB]
  | cons f rest ih =>
    simp only [chainNodes, noDupListB, noDupB, Bool.and_eq_true]
    refine ⟨⟨?_, ih⟩, trivial⟩
    cases rest with
    | nil => simp [chainNodes, noDupFrames]
    | cons r rs => simp [chainNodes, noDupFrames, StackFrameNode.frame]

mutual
theorem find_some_noDup (n : StackFrameNode) (f : StackFrame)
    (m : StackFrameNode) (h : findNodeInChildren n f = some m)
    (hn : noDupB n = true) : noDupB m = true := by
  cases n with
  | mk g cs =>
    by_cases hg : areFramesEqual g f
    · simp only [findNodeInChildren, hg, if_true, Option.some.injEq] at h
      exact h ▸ hn
    · simp only [findNodeInChildren, hg, Bool.false_eq_true, if_false] at h
      simp only [noDupB, Bool.and_eq_true] at hn
      exact findInList_some_noDup cs f m h hn.2

theorem findInList_some_noDup (cs : List StackFrameNode) (f : StackFrame)
    (m : StackFrameNode) (h : findInList cs f = some m)
    (hcs : noDupListB cs = true) : noDupB m = true := by
  cases cs with
  | nil => simp [findInList] at h
  | cons c rest =>
    simp only [noDupListB, Bool.and_eq_true] at hcs
    cases hc : findNodeInChildren c f with
    | some n' =>
      simp only [findInList, hc, Option.some.injEq] at h
      exact h ▸ find_some_noDup c f n' hc hcs.1
    | none =>
      simp only [findInList, hc] at h
      exact findInList_some_noDup rest f m h hcs.2
end

theorem replaceFoundList_map_frame (cs : List StackFrameNode) (f : StackFrame)
    (m repl : StackFrameNode) (h : findInList cs f = some m)
    (hr : repl.frame = m.frame) :
    (replaceFoundList cs f repl).map StackFrameNode.frame =
      cs.map StackFrameNode.frame := by
  induction cs with
  | nil => simp [findInList] at h
  | cons c rest ih =>
    cases hc : findNodeInChildren c f with
    | some n' =>
      simp only [findInList, hc, Option.some.injEq] at h
      subst h
      simp [replaceFoundList, hc, replaceFound_frame c f n' repl hc hr]
    | none =>
      simp only [findInList, hc] at h
      simp [replaceFoundList, hc, ih h]

mutual
theorem replaceFound_noDup (n : StackFrameNode) (f : StackFrame)
    (m repl : StackFrameNode) (h : findNodeInChildren n f = some m)
    (hr : repl.frame = m.frame) (hrepl : noDupB repl = true)
    (hn : noDupB n = true) : noDupB (replaceFound n f repl) = true := by
  cases n with
  | mk g cs =>
    by_cases hg : areFramesEqual g f
    · simpa [replaceFound, hg] using hrepl
    · simp only [findNodeInChildren, hg, Bool.false_eq_true, if_false] at h
      simp only [noDupB, Bool.and_eq_true] at hn
      simp only [replaceFound, hg, Bool.false_eq_true, if_false, noDupB,
        Bool.and_eq_true]
      exact ⟨by rw [replaceFoundList_map_frame cs f m repl h hr]; exact hn.1,
        replaceFoundList_noDup cs f m repl h hr hrepl hn.2⟩

theorem replaceFoundList_noDup (cs : List StackFrameNode) (f : StackFrame)
    (m repl : StackFrameNode) (h : findInList cs f = some m)
    (hr : repl.frame = m.frame) (hrepl : noDupB repl = true)
    (hcs : noDupListB cs = true) :
    noDupListB (replaceFoundList cs f repl) = true := by
  cases cs with
  | nil => simp [findInList] at h
  | cons c rest =>
    simp only [noDupListB, Bool.and_eq_true] at hcs
    cases hc : findNodeInChildren c f with
    | some n' =>
      simp only [findInList, hc, Option.some.injEq] at h
      subst h
      simp only [replaceFoundList, hc, Option.isSome_some, if_true, noDupListB,
        Bool.and_eq_true]
      exact ⟨replaceFound_noDup c f n' repl hc hr hrepl hcs.1, hcs.2⟩
    | none =>
      simp only [findInList, hc] at h
      simp only [replaceFoundList, hc, Option.isSome_none, Bool.false_eq_true,
        if_false, noDupListB, Bool.and_eq_true]
      exact ⟨hcs.1, replaceFoundList_noDup rest f m repl h hr hrepl hcs.2⟩
end

theorem mergeGo_noDup (fs : List StackFrame) :
    ∀ n : StackFrameNode, noDupB n = true → noDupB (mergeGo n fs) = true := by
  induction fs with
  | nil => intro n hn; cases n; exact hn
  | cons f rest ih =>
    intro n hn
    cases n with
    | mk g cs =>
      cases hf : findNodeInChildren (.mk g cs) f with
      | none =>
        simp only [mergeGo, hf]
        simp only [noDupB, Bool.and_eq_true] at hn
        have hroot : areFramesEqual g f = false := by
          by_contra hcontra
          simp only [Bool.not_eq_false] at hcontra
          simp [findNodeInChildren, hcontra] at hf
        have hlist : findInList cs f = none := by
          simpa [findNodeInChildren, hroot] using hf
        simp only [noDupB, Bool.and_eq_true, List.map_append]
        constructor
        · simp only [chainNodes, List.map_cons, List.map_nil,
            StackFrameNode.frame]
          exact noDupFrames_append_singleton _ f hn.1 (by
            intro g' hg'
            simp only [List.mem_map] at hg'
            obtain ⟨c, hc, hceq⟩ := hg'
            have := findInList_none_mem cs f hlist c hc
            exact hceq ▸ findNodeInChildren_none_root c f this)
        · rw [noDupListB_append]
          simp [hn.2, noDupListB_chainNodes]
      | some m =>
        simp only [mergeGo, hf]
        exact replaceFound_noDup _ f m _ hf (mergeGo_frame rest m)
          (ih m (find_some_noDup _ f m hf hn)) hn

/-- Claim C4 (confirmed): the no-duplicate invariant is preserved by the
merge — if no node of `t` has two children with equivalent frames, the
same holds after merging any ordered frame sequence.  (The first appended
frame had no match anywhere in the cursor's subtree, hence none among the
cursor's direct children; every later appended node starts with exactly
one child.) -/
theorem mergeCallStack_noDup (t : StackFrameNode) (fs : List StackFrame)
    (h : noDupB t = true) : noDupB (mergeCallStack t fs) = true :=
  mergeGo_noDup fs t h

/-- Witness for C4: a concrete duplicate-free tree stays duplicate-free
after a merge that both matches (deeply) and appends. -/
theorem mergeCallStack_noDup_witness :
    noDupB treeAB = true ∧
      noDupB (mergeCallStack treeAB [frameA, frameC]) = true :=
  ⟨by decide, mergeCallStack_noDup treeAB [frameA, frameC] (by decide)⟩

/-! ## Claim C10 — merge is monotone and append-only -/

mutual
theorem treeExtends_refl (n : StackFrameNode) : TreeExtends n n := by
  cases n with
  | mk f cs =>
    have h := listExtends_refl cs
    have hmk := TreeExtends.mk f cs cs [] h
    simpa using hmk

theorem listExtends_refl (cs : List StackFrameNode) :
    List.Forall₂ TreeExtends cs cs := by
  cases cs with
  | nil => exact List.Forall₂.nil
  | cons c rest =>
    exact List.Forall₂.cons (treeExtends_refl c) (listExtends_refl rest)
end

mutual
theorem replaceFound_extends (n : StackFrameNode) (f : StackFrame)
    (m repl : StackFrameNode) (h : findNodeInChildren n f = some m)
    (hm : TreeExtends m repl) : TreeExtends n (replaceFound n f repl) := by
  cases n with
  | mk g cs =>
    by_cases hg : areFramesEqual g f
    · simp only [findNodeInChildren, hg, if_true, Option.some.injEq] at h
      simpa [replaceFound, hg] using h ▸ hm
    · simp only [findNodeInChildren, hg, Bool.false_eq_true, if_false] at h
      simp only [replaceFound, hg, Bool.false_eq_true, if_false]
      have hmk := TreeExtends.mk g cs (replaceFoundList cs f repl) []
        (replaceFoundList_extends cs f m repl h hm)
      simpa using hmk

theorem replaceFoundList_extends (cs : List StackFrameNode) (f : StackFrame)
    (m repl : StackFrameNode) (h : findInList cs f = some m)
    (hm : TreeExtends m repl) :
    List.Forall₂ TreeExtends cs (replaceFoundList cs f repl) := by
  cases cs with
  | nil => simp [findInList] at h
  | cons c rest =>
    cases hc : findNodeInChildren c f with
    | some n' =>
      simp only [findInList, hc, Option.some.injEq] at h
      subst h
      simp only [replaceFoundList, hc, Option.isSome_some, if_true]
      exact List.Forall₂.cons (replaceFound_extends c f n' repl hc hm)
        (listExtends_refl rest)
    | none =>
      simp only [findInList, hc] at h
      simp only [replaceFoundList, hc, Option.isSome_none, Bool.false_eq_true,
        if_false]
      exact List.Forall₂.cons (treeExtends_refl c)
        (replaceFoundList_extends rest f m repl h hm)
end

theorem mergeGo_extends (fs : List StackFrame) :
    ∀ n : StackFrameNode, TreeExtends n (mergeGo n fs) := by
  induction fs with
  | nil => intro n; cases n; exact treeExtends_refl _
  | cons f rest ih =>
    intro n
    cases n with
    | mk g cs =>
      cases hf : findNodeInChildren (.mk g cs) f with
      | none =>
        simp only [mergeGo, hf]
        exact TreeExtends.mk g cs cs (chainNodes (f :: rest)) (listExtends_refl cs)
      | some m =>
        simp only [mergeGo, hf]
        exact replaceFound_extends _ f m _ hf (ih m)

/-- Claim C10 (confirmed): merging is monotone and append-only — after
merging any frame sequence into any tree, the old root still carries its
frame, every pre-existing node survives with its frame unchanged, and
every pre-existing children list is either unchanged or extended by new
nodes at its end (`TreeExtends`, which forbids removal, replacement and
reordering of existing children). -/
theorem mergeCallStack_extends (t : StackFrameNode) (fs : List StackFrame) :
    TreeExtends t (mergeCallStack t fs) :=
  mergeGo_extends fs t

/-! ## Claim C8 — idempotence under exact repetition

The second merge of the same sequence never appends: while matching, the
cursor always sits somewhere on the chain created by the first merge, at
or above the position of the frame currently being matched, so
`findNodeInChildren` (searching the cursor's whole chain suffix) always
finds an equivalent node.  The lemmas below capture the invariant "the
remaining frames are a suffix of the cursor's chain". -/

theorem findNodeInChildren_mk (g : StackFrame) (cs : List StackFrameNode)
    (f : StackFrame) :
    findNodeInChildren (.mk g cs) f =
      if areFramesEqual g f then some (.mk g cs) else findInList cs f := by
  simp [findNodeInChildren]

theorem findInList_singleton (c : StackFrameNode) (f : StackFrame) :
    findInList [c] f = findNodeInChildren c f := by
  cases h : findNodeInChildren c f <;> simp [findInList, h]

theorem chainFind_cons (g : StackFrame) (gs : List StackFrame) (f : StackFrame) :
    chainFind (g :: gs) f =
      if areFramesEqual g f then some (g, gs) else chainFind gs f := by
  simp [chainFind]

theorem replaceFound_mk (g : StackFrame) (cs : List StackFrameNode)
    (f : StackFrame) (repl : StackFrameNode) :
    replaceFound (.mk g cs) f repl =
      if areFramesEqual g f then repl else .mk g (replaceFoundList cs f repl) := by
  simp [replaceFound]

theorem replaceFoundList_cons (c : StackFrameNode) (rest : List StackFrameNode)
    (f : StackFrame) (repl : StackFrameNode) :
    replaceFoundList (c :: rest) f repl =
      if (findNodeInChildren c f).isSome then replaceFound c f repl :: rest
      else c :: replaceFoundList rest f repl := by
  simp [replaceFoundList]

theorem mergeGo_cons_found (n : StackFrameNode) (f : StackFrame)
    (rest : List StackFrame) (m : StackFrameNode)
    (h : findNodeInChildren n f = some m) :
    mergeGo n (f :: rest) = replaceFound n f (mergeGo m rest) := by
  cases n
  simp [mergeGo, h]

theorem findNodeInChildren_chain (gs : List StackFrame) :
    ∀ (g f : StackFrame),
      findNodeInChildren (.mk g (chainNodes gs)) f =
        (chainFind (g :: gs) f).map (fun p => .mk p.1 (chainNodes p.2)) := by
  induction gs with
  | nil =>
    intro g f
    by_cases hg : areFramesEqual g f
    · simp [findNodeInChildren_mk, chainFind_cons, chainNodes, chainFind, hg]
    · simp [findNodeInChildren_mk, chainFind_cons, chainNodes, chainFind,
        findInList, hg]
  | cons g' gs' ih =>
    intro g f
    by_cases hg : areFramesEqual g f
    · simp [findNodeInChildren_mk, chainFind_cons, hg]
    · rw [findNodeInChildren_mk, if_neg hg,
        show chainNodes (g' :: gs') = [.mk g' (chainNodes gs')] from rfl,
        findInList_singleton, ih g' f, chainFind_cons g (g' :: gs') f, if_neg hg]

theorem chainFind_suffix (v : List StackFrame) :
    ∀ (f : StackFrame) (rem : List StackFrame), (f :: rem) <:+ v →
      ∃ h hs, chainFind v f = some (h, hs) ∧ (f :: rem) <:+ (h :: hs) := by
  induction v with
  | nil =>
    intro f rem hsuf
    simp at hsuf
  | cons g gs ih =>
    intro f rem hsuf
    by_cases hg : areFramesEqual g f
    · exact ⟨g, gs, by rw [chainFind_cons, if_pos hg], hsuf⟩
    · have hsuf' : (f :: rem) <:+ gs := by
        rcases List.suffix_cons_iff.mp hsuf with heq | htail
        · have : f = g := by injection heq
          subst this
          simp [areFramesEqual_refl] at hg
        · exact htail
      obtain ⟨h, hs, hcf, hss⟩ := ih f rem hsuf'
      exact ⟨h, hs, by rw [chainFind_cons, if_neg hg]; exact hcf, hss⟩

theorem replaceFound_chain (gs : List StackFrame) :
    ∀ (g f h : StackFrame) (hs : List StackFrame),
      chainFind (g :: gs) f = some (h, hs) →
      replaceFound (.mk g (chainNodes gs)) f (.mk h (chainNodes hs)) =
        .mk g (chainNodes gs) := by
  induction gs with
  | nil =>
    intro g f h hs hcf
    by_cases hg : areFramesEqual g f
    · rw [chainFind_cons, if_pos hg] at hcf
      have h1 : g = h := by injection hcf with hp; injection hp with hp1 hp2
      have h2 : ([] : List StackFrame) = hs := by
        injection hcf with hp; injection hp with hp1 hp2
      rw [replaceFound_mk, if_pos hg, ← h1, ← h2]
    · rw [chainFind_cons, if_neg hg] at hcf
      simp [chainFind] at hcf
  | cons g' gs' ih =>
    intro g f h hs hcf
    by_cases hg : areFramesEqual g f
    · rw [chainFind_cons, if_pos hg] at hcf
      have h1 : g = h := by injection hcf with hp; injection hp with hp1 hp2
      have h2 : g' :: gs' = hs := by
        injection hcf with hp; injection hp with hp1 hp2
      rw [replaceFound_mk, if_pos hg, ← h1, ← h2]
    · rw [chainFind_cons, if_neg hg] at hcf
      have hfind : (findNodeInChildren (.mk g' (chainNodes gs')) f).isSome = true := by
        rw [findNodeInChildren_chain gs' g' f, hcf]
        rfl
      rw [replaceFound_mk, if_neg hg,
        show chainNodes (g' :: gs') = [.mk g' (chainNodes gs')] from rfl,
        replaceFoundList_cons, if_pos hfind, ih g' f h hs hcf]

theorem mergeGo_chain (rem : List StackFrame) :
    ∀ (g : StackFrame) (gs : List StackFrame), rem <:+ (g :: gs) →
      mergeGo (.mk g (chainNodes gs)) rem = .mk g (chainNodes gs) := by
  induction rem with
  | nil => intro g gs _; rfl
  | cons f rem' ih =>
    intro g gs hsuf
    obtain ⟨h, hs, hcf, hss⟩ := chainFind_suffix (g :: gs) f rem' hsuf
    have hfind : findNodeInChildren (.mk g (chainNodes gs)) f =
        some (.mk h (chainNodes hs)) := by
      rw [findNodeInChildren_chain gs g f, hcf]
      rfl
    have hrem' : rem' <:+ (h :: hs) :=
      (List.suffix_cons f rem').trans hss
    calc mergeGo (.mk g (chainNodes gs)) (f :: rem')
        = replaceFound (.mk g (chainNodes gs)) f
            (mergeGo (.mk h (chainNodes hs)) rem') :=
          mergeGo_cons_found _ f rem' _ hfind
      _ = replaceFound (.mk g (chainNodes gs)) f (.mk h (chainNodes hs)) := by
          rw [ih h hs hrem']
      _ = .mk g (chainNodes gs) := replaceFound_chain gs g f h hs hcf

theorem mergeGo_chain_root (rf g : StackFrame) (gs : List StackFrame)
    (hg : areFramesEqual rf g = false) :
    mergeGo (.mk rf (chainNodes (g :: gs))) (g :: gs) =
      .mk rf (chainNodes (g :: gs)) := by
  have hgneg : ¬areFramesEqual rf g = true := by simp [hg]
  have hfindg : findNodeInChildren (.mk g (chainNodes gs)) g =
      some (.mk g (chainNodes gs)) :=
    findNodeInChildren_self _ g
      (by simpa [StackFrameNode.frame] using areFramesEqual_refl g)
  have hfind : findNodeInChildren (.mk rf (chainNodes (g :: gs))) g =
      some (.mk g (chainNodes gs)) := by
    rw [findNodeInChildren_mk, if_neg hgneg,
      show chainNodes (g :: gs) = [.mk g (chainNodes gs)] from rfl,
      findInList_singleton, hfindg]
  have hchain : mergeGo (.mk g (chainNodes gs)) gs = .mk g (chainNodes gs) :=
    mergeGo_chain gs g gs (List.suffix_cons g gs)
  calc mergeGo (.mk rf (chainNodes (g :: gs))) (g :: gs)
      = replaceFound (.mk rf (chainNodes (g :: gs))) g
          (mergeGo (.mk g (chainNodes gs)) gs) :=
        mergeGo_cons_found _ g gs _ hfind
    _ = replaceFound (.mk rf (chainNodes (g :: gs))) g (.mk g (chainNodes gs)) := by
        rw [hchain]
    _ = .mk rf (chainNodes (g :: gs)) := by
        rw [replaceFound_mk, if_neg hgneg,
          show chainNodes (g :: gs) = [.mk g (chainNodes gs)] from rfl,
          replaceFoundList_cons, if_pos (by rw [hfindg]; rfl),
          replaceFound_mk, if_pos (areFramesEqual_refl g)]

theorem mergeGo_empty_idem (fs : List StackFrame) :
    ∀ rf : StackFrame,
      mergeGo (mergeGo (.mk rf []) fs) fs = mergeGo (.mk rf []) fs := by
  induction fs with
  | nil => intro rf; rfl
  | cons f rest ih =>
    intro rf
    by_cases hrf : areFramesEqual rf f
    · have hskip : mergeGo (.mk rf []) (f :: rest) = mergeGo (.mk rf []) rest :=
        mergeGo_skip _ f rest (by simpa [StackFrameNode.frame] using hrf)
      rw [hskip]
      have hframe : areFramesEqual (mergeGo (.mk rf []) rest).frame f = true := by
        rw [mergeGo_frame rest (.mk rf [])]
        simpa [StackFrameNode.frame] using hrf
      rw [mergeGo_skip _ f rest hframe]
      exact ih rf
    · have hbase : mergeGo (.mk rf []) (f :: rest) =
          .mk rf (chainNodes (f :: rest)) := by
        simp only [Bool.not_eq_true] at hrf
        simp [mergeGo, findNodeInChildren, findInList, hrf]
      rw [hbase]
      exact mergeGo_chain_root rf f rest (by simpa using hrf)

/-- Claim C8 (confirmed): merging the same non-empty frame sequence into
an empty (root-only, sentinel-framed) tree twice yields exactly the tree
obtained by merging it once — during the second pass the cursor always
finds an equivalent node in its subtree, so nothing is appended. -/
theorem mergeCallStack_idempotent (fs : List StackFrame) (hne : fs ≠ []) :
    mergeCallStack (mergeCallStack (.mk rootFrame []) fs) fs =
      mergeCallStack (.mk rootFrame []) fs :=
  mergeGo_empty_idem fs rootFrame

/-- Witness for C8 at the concrete two-frame stack `[frameA, frameB]`. -/
theorem mergeCallStack_idempotent_witness :
    ([frameA, frameB] : List StackFrame) ≠ [] ∧
      mergeCallStack (mergeCallStack (.mk rootFrame []) [frameA, frameB])
          [frameA, frameB] =
        mergeCallStack (.mk rootFrame []) [frameA, frameB] :=
  ⟨by decide, mergeCallStack_idempotent [frameA, frameB] (by decide)⟩
